import Mathlib

/-
Verification of the sonarcs-importer command-line utilities.

The scripts parse a SonarQube XML rule export, retrieve the pattern catalog
of the Codacy API, reconcile the two sets of rule keys, and configure a
Codacy coding standard.  This development gives a shallow embedding of the
pure logic of those scripts (string handling, XML rule extraction, set
reconciliation, cursor pagination, payload construction, unique-name
search, and the sequential control flow of the importer run) and proves
properties of that embedding.

Python strings are modelled as Lean strings; the handful of Python string
primitives the scripts use (`startswith`, `replace`, `lower`, the decimal
rendering of an integer inside an f-string) are implemented over the
underlying character lists so that they are executable and provable.
HTTP interactions are modelled by oracles: a `World` structure supplies the
outcome of every request the importer makes, and `runImporter` produces the
sequence of issued requests together with the process exit code.
-/

namespace SonarImporter

/-! ### Python string primitives -/

/-- Python `s.startswith(pre)`, over the underlying character lists. -/
def pyStartsWith (s pre : String) : Bool :=
  pre.data.isPrefixOf s.data

/-- Python `str.replace` on character lists: replace every non-overlapping
occurrence of `pat` in `s` by `rep`, scanning left to right. -/
def listReplace (s pat rep : List Char) : List Char :=
  match s with
  | [] => []
  | c :: rest =>
    if h : pat ≠ [] ∧ pat.isPrefixOf (c :: rest) then
      rep ++ listReplace ((c :: rest).drop pat.length) pat rep
    else
      c :: listReplace rest pat rep
termination_by s.length
decreasing_by
  · have hlen : pat.length ≠ 0 := fun hl => h.1 (List.length_eq_zero.mp hl)
    simp only [List.length_drop, List.length_cons]
    omega
  · simp only [List.length_cons]
    omega

/-- Python `pat in s` (substring containment) on character lists. -/
def containsSub (s pat : List Char) : Bool :=
  match s with
  | [] => pat.isEmpty
  | _ :: rest => pat.isPrefixOf s || containsSub rest pat

/-- Python `s.replace(pat, rep)` on strings. -/
def pyReplace (s pat rep : String) : String :=
  ⟨listReplace s.data pat.data rep.data⟩

/-- Python `s.lower()` on strings. -/
def pyLower (s : String) : String :=
  ⟨s.data.map Char.toLower⟩

/-- Python `sorted` on a list of strings (lexicographic order). -/
def pySorted (l : List String) : List String :=
  l.mergeSort (fun a b => decide (a ≤ b))

/-! ### Decimal rendering of a natural number

`Nat.repr` (used by Lean's `toString`, and matching the decimal rendering a
Python f-string performs) is defined in core through the fuel-based
`Nat.toDigitsCore`.  `trueDigits` is the fuel-free version used to prove
that the rendering is injective, which is what makes the unique-name
search of `_get_unique_standard_name` terminate. -/

/-- Fuel-free decimal digit rendering of a natural number. -/
def trueDigits (n : Nat) : List Char :=
  if n < 10 then [Nat.digitChar n]
  else trueDigits (n / 10) ++ [Nat.digitChar (n % 10)]
termination_by n
decreasing_by
  exact Nat.div_lt_self (by omega) (by omega)

/-- Numeric value of a decimal digit string, a left inverse of `trueDigits`. -/
def digitsVal (l : List Char) : Nat :=
  l.foldl (fun acc c => 10 * acc + (c.toNat - 48)) 0

/-! ### Rule-key extraction from a pattern identifier

Embeds the per-identifier step shared by `check_missing_rules.get_codacy_patterns`,
`get_default_patterns.get_all_sonarc_patterns` and
`verify_coding_standard.get_enabled_patterns_in_standard`:

    if pattern_id.startswith('SonarCSharp_'):
        rule_key = pattern_id.replace('SonarCSharp_', '')
-/

/-- Extract the rule key from a Codacy pattern identifier; `none` when the
identifier does not start with the `SonarCSharp_` prefix and is therefore
not accumulated. -/
def extractRuleKey (pattern_id : String) : Option String :=
  if pyStartsWith pattern_id "SonarCSharp_" then
    some (pyReplace pattern_id "SonarCSharp_" "")
  else
    none

/-! ### XML document model and rule extraction

Embeds `get_xml_rules` of `check_missing_rules.py` / `verify_coding_standard.py`
(`get_default_patterns.py` has the same loop, returning the unsorted set):

    for rule in root.findall('.//rule'):
        key_elem = rule.find('key')
        if key_elem is not None and key_elem.text is not None:
            rules.append(key_elem.text)
    return sorted(rules)
-/

/-- An XML element: tag, text (the text before the first child, as in
`ElementTree.text`), and list of child elements. -/
inductive XmlNode where
  | elem (tag : String) (text : Option String) (children : List XmlNode)
deriving Repr

def XmlNode.tag : XmlNode → String
  | .elem t _ _ => t

def XmlNode.text : XmlNode → Option String
  | .elem _ tx _ => tx

def XmlNode.children : XmlNode → List XmlNode
  | .elem _ _ cs => cs

mutual

/-- All strict descendants of a node, in document (preorder) order. -/
def descendants : XmlNode → List XmlNode
  | .elem _ _ children => descendantsList children

def descendantsList : List XmlNode → List XmlNode
  | [] => []
  | c :: cs => c :: (descendants c ++ descendantsList cs)

end

/-- Embeds `root.findall('.//' + t)`: every descendant element with tag `t`,
in document order. -/
def findall_desc (root : XmlNode) (t : String) : List XmlNode :=
  (descendants root).filter (fun n => n.tag == t)

/-- Embeds `node.find(t)`: the first child element with tag `t`, if any. -/
def find_child (n : XmlNode) (t : String) : Option XmlNode :=
  n.children.find? (fun c => c.tag == t)

/-- Embeds `get_xml_rules`: the sorted list of text values of the first `<key>`
child of each `<rule>` descendant that has one with non-null text. -/
def get_xml_rules (root : XmlNode) : List String :=
  pySorted ((findall_desc root "rule").filterMap
    (fun r => (find_child r "key").bind XmlNode.text))

/-! ### Set reconciliation

Embeds the set algebra of `check_missing_rules.main`:

    missing_in_codacy = set(xml_rules) - set(codacy_patterns)
    extra_in_codacy = set(codacy_patterns) - set(xml_rules)
    ... len(set(xml_rules) & set(codacy_patterns))

and of `verify_coding_standard.main` (same expressions against the enabled
patterns of the standard, plus the unguarded success-rate division). -/

def missing_in_codacy (xml_rules codacy_patterns : List String) : Finset String :=
  xml_rules.toFinset \ codacy_patterns.toFinset

def extra_in_codacy (xml_rules codacy_patterns : List String) : Finset String :=
  codacy_patterns.toFinset \ xml_rules.toFinset

def matching_rules (xml_rules codacy_patterns : List String) : Finset String :=
  xml_rules.toFinset ∩ codacy_patterns.toFinset

/-- Python division, which raises `ZeroDivisionError` on a zero divisor;
the exceptional outcome is modelled as `none`. -/
def pyDiv (a b : ℚ) : Option ℚ :=
  if b = 0 then none else some (a / b)

/-- Embeds `verify_coding_standard.main`: `(len(matching_rules) / len(xml_rules)) * 100`,
where `matching_rules = set(xml_rules) & set(enabled_rules)` and
`len(xml_rules)` is the length of the (possibly duplicated) list. -/
def success_rate (xml_rules enabled_rules : List String) : Option ℚ :=
  (pyDiv ((matching_rules xml_rules enabled_rules).card : ℚ)
    (xml_rules.length : ℚ)).map (fun q => q * 100)

/-! ### Cursor pagination

Embeds `_get_available_patterns` / `_get_all_tool_patterns` of
`codacy_sonar_importer.py` (and the identical loop of
`get_default_patterns.get_all_sonarc_patterns`): repeatedly GET the
patterns endpoint, accumulate the truthy `id` of every entry, follow the
`pagination.cursor` of each response, stop on a response without a cursor;
on a request error print a warning and stop with what was accumulated.

A response sequence is an oracle `Nat → FetchResult` giving the response to
the `i`-th GET.  The loop is written with explicit fuel; the pagination
theorem shows the result is fuel-independent once the fuel covers the first
terminal response, which is the termination argument. -/

/-- One page of the patterns endpoint: the optional `id` of each entry in
`data`, and the optional `pagination.cursor`. -/
structure Page where
  data : List (Option String)
  cursor : Option String
deriving DecidableEq, Repr

/-- Outcome of one GET against the patterns endpoint. -/
inductive FetchResult where
  | ok (page : Page)
  | err
deriving DecidableEq, Repr

/-- Embeds `pattern.get('id')` followed by the Python truthiness test
`if pattern_id:`: `None` and the empty string are skipped. -/
def extractId (o : Option String) : Option String :=
  match o with
  | some s => if s = "" then none else some s
  | none => none

/-- The set of pattern ids contributed by one response (an errored request
contributes nothing). -/
def pageIds (r : FetchResult) : Finset String :=
  match r with
  | .ok page => (page.data.filterMap extractId).toFinset
  | .err => ∅

/-- A response at which the retrieval loop stops: a failed request, or a
page carrying no continuation cursor. -/
def isTerminal (r : FetchResult) : Bool :=
  match r with
  | .ok page => page.cursor.isNone
  | .err => true

/-- The pagination loop of `_get_available_patterns` /
`_get_all_tool_patterns`, with explicit fuel; `none` means the fuel ran out
before the loop stopped. -/
def get_available_patterns (resp : Nat → FetchResult) :
    Nat → Nat → Finset String → Option (Finset String)
  | 0, _, _ => none
  | fuel + 1, i, acc =>
    match resp i with
    | .err => some acc
    | .ok page =>
      let acc' := acc ∪ (page.data.filterMap extractId).toFinset
      if page.cursor.isNone then some acc'
      else get_available_patterns resp fuel (i + 1) acc'

/-- Union of the ids over responses `i, i+1, ..., i+n`. -/
def unionUpTo (resp : Nat → FetchResult) (i : Nat) : Nat → Finset String
  | 0 => pageIds (resp i)
  | n + 1 => pageIds (resp i) ∪ unionUpTo resp (i + 1) n

/-- Embeds `check_missing_rules.get_codacy_patterns`: a single GET of the patterns
endpoint (no pagination loop), extraction of the prefixed keys, and sort.
`none` models the uncaught exception of `raise_for_status` on a failed
request.  Each entry contributes `pattern.get('id', '')`. -/
def get_codacy_patterns (resp : FetchResult) : Option (List String) :=
  match resp with
  | .err => none
  | .ok page =>
    some (pySorted (page.data.filterMap (fun o => extractRuleKey (o.getD ""))))

/-! ### Mapping SonarQube rules to Codacy patterns and the PATCH payload

Embeds `_map_sonar_rules_to_codacy_patterns` and `_enable_tool_patterns`
of `codacy_sonar_importer.py`. -/

/-- One parsed SonarQube rule (output of `parse_sonar_xml`); `parameters`
is the rule's parameter dictionary in insertion order. -/
structure SonarRule where
  repository_key : String
  key : String
  priority : String
  parameters : List (String × String)
deriving DecidableEq, Repr

/-- One `name`/`value` entry of a pattern configuration. -/
structure PatternParam where
  name : String
  value : String
deriving DecidableEq, Repr

/-- One entry of the `patterns` list of the PATCH payload.  A rule without
parameters carries no `parameters` field, modelled as the empty list. -/
structure PatternConfig where
  id : String
  enabled : Bool
  parameters : List PatternParam
deriving DecidableEq, Repr

/-- The repository-key dispatch of `_map_sonar_rules_to_codacy_patterns`:
`csharpsquid` and `roslyn.sonaranalyzer.security.cs` map to the `SonarC#`
tool; any other repository key is warned about and skipped. -/
def codacy_tool_for_repo (repository_key : String) : Option String :=
  if repository_key = "csharpsquid" then some "SonarC#"
  else if repository_key = "roslyn.sonaranalyzer.security.cs" then some "SonarC#"
  else none

/-- Embeds `pattern_id = f"SonarCSharp_{rule_key}"`. -/
def rule_pattern_id (r : SonarRule) : String :=
  "SonarCSharp_" ++ r.key

/-- The `pattern_config` dictionary built for one matched rule. -/
def pattern_config_of_rule (r : SonarRule) : PatternConfig :=
  { id := rule_pattern_id r
    enabled := true
    parameters := r.parameters.map (fun p => { name := p.1, value := p.2 }) }

/-- Embeds `tool_patterns[tool_name].append(pattern_config)` with creation of the
key on first use (a Python dict keyed by tool name, in insertion order). -/
def add_to_group (groups : List (String × List PatternConfig)) (tool : String)
    (pc : PatternConfig) : List (String × List PatternConfig) :=
  if groups.any (fun g => g.1 == tool) then
    groups.map (fun g => if g.1 == tool then (g.1, g.2 ++ [pc]) else g)
  else
    groups ++ [(tool, [pc])]

/-- The body of the rule loop of `_map_sonar_rules_to_codacy_patterns`:
dispatch on the repository key (skipping unknown repositories with a
warning), skip rules whose pattern id is not among the available patterns,
and append the pattern configuration to the tool's group. -/
def map_rule_step (available : List String)
    (groups : List (String × List PatternConfig)) (r : SonarRule) :
    List (String × List PatternConfig) :=
  match codacy_tool_for_repo r.repository_key with
  | none => groups
  | some tool =>
    if rule_pattern_id r ∈ available then
      add_to_group groups tool (pattern_config_of_rule r)
    else groups

/-- Embeds `_map_sonar_rules_to_codacy_patterns`: group the rules by Codacy tool,
keeping only rules with a known repository key whose pattern id occurs in
the available patterns retrieved from the API. -/
def map_sonar_rules_to_codacy_patterns (rules : List SonarRule)
    (available : List String) : List (String × List PatternConfig) :=
  rules.foldl (map_rule_step available) []

/-- The flat list of pattern configurations produced for the `SonarC#` tool
(the only tool `codacy_tool_for_repo` ever yields), in rule order. -/
def matched_sonar_patterns (rules : List SonarRule) (available : List String) :
    List PatternConfig :=
  rules.filterMap (fun r =>
    match codacy_tool_for_repo r.repository_key with
    | none => none
    | some _ =>
      if rule_pattern_id r ∈ available then some (pattern_config_of_rule r)
      else none)

/-- The `comprehensive_patterns` list of `_enable_tool_patterns`: the
matched patterns (enabled), followed by every other available pattern id of
the tool marked explicitly disabled. -/
def comprehensive_patterns (patterns : List PatternConfig)
    (all_available : List String) : List PatternConfig :=
  patterns ++
    (all_available.filter
      (fun pid => decide (pid ∉ patterns.map PatternConfig.id))).map
      (fun pid => { id := pid, enabled := false, parameters := [] })

/-! ### Unique coding-standard name

Embeds `_get_unique_standard_name`:

    if self.standard_name not in existing_names: return self.standard_name
    counter = 1
    while f"{self.standard_name} ({counter})" in existing_names:
        counter += 1
-/

/-- Embeds `f"{base} ({k})"`. -/
def counter_name (base : String) (k : Nat) : String :=
  base ++ " (" ++ Nat.repr k ++ ")"

/-- The `while` loop searching for the first free counter, with fuel. -/
def find_counter (base : String) (existing : List String) : Nat → Nat → Nat
  | 0, k => k
  | fuel + 1, k =>
    if counter_name base k ∈ existing then find_counter base existing fuel (k + 1)
    else k

/-- Embeds `_get_unique_standard_name` on a successfully retrieved name set.
`existing_names.length + 1` units of fuel always suffice, since the
`length + 1` candidate names are pairwise distinct. -/
def get_unique_standard_name (standard_name : String)
    (existing_names : List String) : String :=
  if standard_name ∈ existing_names then
    counter_name standard_name
      (find_counter standard_name existing_names (existing_names.length + 1) 1)
  else
    standard_name

/-! ### The importer run

Embeds the control flow of `CodacySonarImporter.run` (after the XML parse):
`get_tools`, `create_coding_standard` (which first lists the existing
standards to pick a unique name), `disable_all_tools`, `enable_sonar_rules`,
`promote_coding_standard`, `_generate_output_files`, and the final summary.
A `World` supplies the outcome of every request; `runImporter` returns the
issued requests in order together with the exit code (`none` when the
process runs to completion, `some 1` for `sys.exit(1)`). -/

/-- One API request issued by the importer. -/
inductive Ev where
  | getTools
  | listStandards
  | createStd (name : String)
  | getStdTools
  | disablePatch (uuid : String)
  | getAvailablePatterns
  | getToolPatterns (uuid : String)
  | enablePatch (uuid : String) (payload : List PatternConfig)
  | promote
deriving DecidableEq, Repr

/-- Outcomes of the importer's requests.  `none` on the first four `Option`
fields models a request failure.  The pattern-retrieval GET loops never
abort the run whatever their responses (they warn and return what they
accumulated), so their outcome is abstracted by the resulting pattern-id
lists. -/
structure World where
  toolsResp : Option (List (String × Option String))
  standardsResp : Option (List String)
  createResp : Option String
  stdToolsResp : Option (List (Option String))
  disableResp : String → Bool
  availablePatterns : List String
  allToolPatterns : String → List String
  enableResp : String → Bool
  promoteResp : Bool

/-- Python truthiness filter on an optional string (`if tool_uuid:`). -/
def truthy (o : Option String) : Option String :=
  match o with
  | some s => if s = "" then none else some s
  | none => none

/-- Embeds `get_tools`: `self.tool_uuids[tool.get('name','').lower()] = uuid` for
every tool with a truthy uuid. -/
def build_tool_uuids (tools : List (String × Option String)) :
    List (String × String) :=
  tools.filterMap (fun t => (truthy t.2).map (fun u => (pyLower t.1, u)))

/-- Python dict lookup on an assignment list (later assignments win). -/
def dict_get (d : List (String × String)) (k : String) : Option String :=
  (d.reverse.find? (fun e => e.1 == k)).map (fun e => e.2)

/-- The requests issued by `enable_sonar_rules` for the grouped patterns:
for each tool group, look up the tool uuid (skip with a warning when
absent), retrieve all the tool's patterns, and PATCH the comprehensive
payload. -/
def enable_events (toolUuids : List (String × String))
    (toolPatterns : List (String × List PatternConfig))
    (allTool : String → List String) : List Ev :=
  toolPatterns.flatMap (fun tp =>
    match dict_get toolUuids (pyLower tp.1) with
    | none => []
    | some uuid =>
      [Ev.getToolPatterns uuid,
       Ev.enablePatch uuid (comprehensive_patterns tp.2 (allTool uuid))])

/-- The importer run: the sequence of issued requests and the exit code. -/
def runImporter (w : World) (rules : List SonarRule) (standardName : String) :
    List Ev × Option Nat :=
  match w.toolsResp with
  | none => ([Ev.getTools], some 1)
  | some tools =>
    let toolUuids := build_tool_uuids tools
    let finalName :=
      match w.standardsResp with
      | none => standardName
      | some existing => get_unique_standard_name standardName existing
    match w.createResp with
    | none => ([Ev.getTools, Ev.listStandards, Ev.createStd finalName], some 1)
    | some _ =>
      match w.stdToolsResp with
      | none =>
        ([Ev.getTools, Ev.listStandards, Ev.createStd finalName,
          Ev.getStdTools], some 1)
      | some stdTools =>
        let disableEvs := (stdTools.filterMap truthy).map Ev.disablePatch
        let toolPatterns :=
          map_sonar_rules_to_codacy_patterns rules w.availablePatterns
        let enableEvs :=
          Ev.getAvailablePatterns ::
            enable_events toolUuids toolPatterns w.allToolPatterns
        let pre :=
          [Ev.getTools, Ev.listStandards, Ev.createStd finalName,
           Ev.getStdTools] ++ disableEvs ++ enableEvs
        if w.promoteResp then
          (pre ++ [Ev.promote, Ev.getAvailablePatterns,
            Ev.getAvailablePatterns], none)
        else
          (pre ++ [Ev.promote], some 1)

/-- Rank of the four coding-standard configuration steps in the specified
order; other requests are unranked. -/
def stepRank : Ev → Option Nat
  | .createStd _ => some 0
  | .disablePatch _ => some 1
  | .enablePatch _ _ => some 2
  | .promote => some 3
  | _ => none

/-! ### Concrete inputs used by the witnesses and counterexamples -/

/-- A `csharpsquid` rule with one parameter. -/
def ruleS1 : SonarRule :=
  { repository_key := "csharpsquid", key := "S1", priority := "MAJOR",
    parameters := [("max", "10")] }

/-- A rule from an unrecognised repository. -/
def ruleS2 : SonarRule :=
  { repository_key := "other.repo", key := "S2", priority := "MAJOR",
    parameters := [] }

/-- Two parsed rules: one `csharpsquid` rule with a parameter, and one rule
from an unrecognised repository. -/
def rulesC1 : List SonarRule := [ruleS1, ruleS2]

/-- Both pattern ids are available on the Codacy side. -/
def availC1 : List String := ["SonarCSharp_S1", "SonarCSharp_S2"]

/-- A world in which every request of the run succeeds. -/
def worldC1 : World :=
  { toolsResp := some [("SonarC#", some "u1")]
    standardsResp := some []
    createResp := some "128992"
    stdToolsResp := some [some "u1"]
    disableResp := fun _ => true
    availablePatterns := availC1
    allToolPatterns := fun _ => availC1
    enableResp := fun _ => true
    promoteResp := true }

/-- The PATCH payload the run sends for the `SonarC#` tool on `rulesC1`. -/
def payloadC1 : List PatternConfig :=
  comprehensive_patterns (matched_sonar_patterns rulesC1 availC1) availC1

/-- One parsed `csharpsquid` rule whose pattern is available. -/
def rulesC4 : List SonarRule :=
  [{ repository_key := "csharpsquid", key := "S1", priority := "MAJOR",
     parameters := [] }]

/-- A world in which exactly the per-tool disable PATCH fails. -/
def worldC4 : World :=
  { toolsResp := some [("SonarC#", some "u1")]
    standardsResp := some []
    createResp := some "128992"
    stdToolsResp := some [some "u1"]
    disableResp := fun _ => false
    availablePatterns := ["SonarCSharp_S1"]
    allToolPatterns := fun _ => ["SonarCSharp_S1"]
    enableResp := fun _ => true
    promoteResp := true }

/-- First page: one pattern id, and a continuation cursor. -/
def page0 : Page := { data := [some "SonarCSharp_A"], cursor := some "c1" }

/-- Second page: another pattern id, and no cursor. -/
def page1 : Page := { data := [some "SonarCSharp_B"], cursor := none }

/-- A two-page response sequence for the patterns endpoint. -/
def twoPageResp : Nat → FetchResult :=
  fun i => if i = 0 then .ok page0 else .ok page1

/-- A `<key>` child with text `B`. -/
def keyNodeB : XmlNode := .elem "key" (some "B") []

/-- A `<rule>` element with two `<key>` children. -/
def ruleNodeC6 : XmlNode :=
  .elem "rule" none [.elem "key" (some "A") [], keyNodeB]

/-- A document whose single rule has two `<key>` children. -/
def docC6 : XmlNode := .elem "profile" none [ruleNodeC6]

/-- A document containing no `<rule>` element at all. -/
def docC10 : XmlNode := .elem "profile" none []

/-! ## Theorems -/

/-! ### Decimal rendering is injective -/

theorem digitsVal_append (l : List Char) (c : Char) :
    digitsVal (l ++ [c]) = 10 * digitsVal l + (c.toNat - 48) := by
  simp [digitsVal, List.foldl_append]

theorem val_digitChar : ∀ d, d < 10 → (Nat.digitChar d).toNat - 48 = d := by decide

theorem digitsVal_trueDigits (n : Nat) : digitsVal (trueDigits n) = n := by
  induction n using Nat.strong_induction_on with
  | _ n ih =>
    rw [trueDigits]
    by_cases h : n < 10
    · simp only [if_pos h]
      simp [digitsVal, val_digitChar n h]
    · simp only [if_neg h]
      rw [digitsVal_append, ih (n / 10) (Nat.div_lt_self (by omega) (by omega)),
        val_digitChar (n % 10) (Nat.mod_lt _ (by omega))]
      omega

theorem trueDigits_injective : Function.Injective trueDigits := by
  intro a b h
  have hv := congrArg digitsVal h
  rwa [digitsVal_trueDigits, digitsVal_trueDigits] at hv

theorem toDigitsCore_eq (fuel : Nat) : ∀ (n : Nat) (ds : List Char),
    n < 10 ^ (fuel + 1) →
    Nat.toDigitsCore 10 (fuel + 1) n ds = trueDigits n ++ ds := by
  induction fuel with
  | zero =>
    intro n ds h
    have h10 : n < 10 := by simpa using h
    have hd : n / 10 = 0 := Nat.div_eq_of_lt h10
    rw [Nat.toDigitsCore]
    simp only [hd, if_pos rfl]
    rw [trueDigits, if_pos h10, Nat.mod_eq_of_lt h10]
    rfl
  | succ fuel ih =>
    intro n ds h
    rw [Nat.toDigitsCore]
    by_cases h10 : n < 10
    · have hd : n / 10 = 0 := Nat.div_eq_of_lt h10
      simp only [hd, if_pos rfl]
      rw [trueDigits, if_pos h10, Nat.mod_eq_of_lt h10]
      rfl
    · have hd : ¬ (n / 10 = 0) := by
        have hmod := Nat.mod_lt n (show 0 < 10 by omega)
        have hdm := Nat.div_add_mod n 10
        omega
      simp only [if_neg hd]
      have hlt : n / 10 < 10 ^ (fuel + 1) := by
        rw [Nat.div_lt_iff_lt_mul (by omega)]
        calc n < 10 ^ (fuel + 2) := h
        _ = 10 ^ (fuel + 1) * 10 := by ring
      rw [ih (n / 10) _ hlt]
      conv_rhs => rw [trueDigits]
      rw [if_neg h10]
      simp

theorem toDigits_eq_trueDigits (n : Nat) : Nat.toDigits 10 n = trueDigits n := by
  have h : n < 10 ^ (n + 1) := by
    calc n < 10 ^ n := Nat.lt_pow_self (by omega) n
    _ ≤ 10 ^ (n + 1) := Nat.pow_le_pow_right (by omega) (by omega)
  rw [Nat.toDigits, toDigitsCore_eq n n [] h, List.append_nil]

theorem nat_repr_injective : Function.Injective Nat.repr := by
  intro a b h
  apply trueDigits_injective
  rw [← toDigits_eq_trueDigits, ← toDigits_eq_trueDigits]
  exact congrArg String.data h

/-! ### The unique-name search (claim C8) -/

theorem counter_name_injective (base : String) :
    Function.Injective (counter_name base) := by
  intro i j h
  have hd := congrArg String.data h
  simp only [counter_name, String.data_append] at hd
  have h1 := List.append_cancel_right hd
  have h2 := List.append_cancel_left h1
  exact nat_repr_injective (String.ext h2)

theorem exists_free_counter (base : String) (existing : List String) :
    ∃ k, 1 ≤ k ∧ k < 1 + (existing.length + 1) ∧
      counter_name base k ∉ existing := by
  by_contra hcon
  push_neg at hcon
  have hsub : Finset.image (counter_name base)
      (Finset.Icc 1 (existing.length + 1)) ⊆ existing.toFinset := by
    intro s hs
    rw [Finset.mem_image] at hs
    obtain ⟨k, hk, rfl⟩ := hs
    rw [Finset.mem_Icc] at hk
    rw [List.mem_toFinset]
    exact hcon k hk.1 (by omega)
  have hcard := Finset.card_le_card hsub
  rw [Finset.card_image_of_injective _ (counter_name_injective base),
    Nat.card_Icc] at hcard
  have hle := existing.toFinset_card_le
  omega

theorem find_counter_spec (base : String) (existing : List String) :
    ∀ (fuel k : Nat),
    (∃ j, k ≤ j ∧ j < k + fuel ∧ counter_name base j ∉ existing) →
    k ≤ find_counter base existing fuel k ∧
    counter_name base (find_counter base existing fuel k) ∉ existing ∧
    ∀ j, k ≤ j → j < find_counter base existing fuel k →
      counter_name base j ∈ existing := by
  intro fuel
  induction fuel with
  | zero =>
    intro k h
    obtain ⟨j, hkj, hlt, _⟩ := h
    omega
  | succ fuel ih =>
    intro k h
    obtain ⟨j, hkj, hlt, hj⟩ := h
    by_cases hmem : counter_name base k ∈ existing
    · have hstep : find_counter base existing (fuel + 1) k =
          find_counter base existing fuel (k + 1) := by
        rw [find_counter, if_pos hmem]
      have hne : j ≠ k := fun he => hj (he ▸ hmem)
      obtain ⟨hk1, hk2, hk3⟩ := ih (k + 1) ⟨j, by omega, by omega, hj⟩
      rw [hstep]
      refine ⟨by omega, hk2, ?_⟩
      intro j' hj1 hj2
      rcases Nat.eq_or_lt_of_le hj1 with he | hlt'
      · rwa [he] at hmem
      · exact hk3 j' hlt' hj2
    · have hstep : find_counter base existing (fuel + 1) k = k := by
        rw [find_counter, if_neg hmem]
      rw [hstep]
      exact ⟨le_refl k, hmem, fun j' h1 h2 => absurd (lt_of_le_of_lt h1 h2)
        (lt_irrefl k)⟩

/-- C8: for every successfully retrieved set of existing coding-standard
names, `_get_unique_standard_name` returns a name not in that set — the
requested base name when it is absent, and otherwise `base (k)` for the
smallest counter `k ≥ 1` whose name is absent. -/
theorem c8_unique_standard_name (base : String) (existing : List String) :
    get_unique_standard_name base existing ∉ existing ∧
    (base ∉ existing → get_unique_standard_name base existing = base) ∧
    (base ∈ existing → ∃ k, 1 ≤ k ∧
      get_unique_standard_name base existing = counter_name base k ∧
      counter_name base k ∉ existing ∧
      ∀ j, 1 ≤ j → j < k → counter_name base j ∈ existing) := by
  by_cases hb : base ∈ existing
  · obtain ⟨k₀, hk1, hk2, hk3⟩ := exists_free_counter base existing
    obtain ⟨hs1, hs2, hs3⟩ := find_counter_spec base existing
      (existing.length + 1) 1 ⟨k₀, hk1, hk2, hk3⟩
    have hval : get_unique_standard_name base existing =
        counter_name base (find_counter base existing (existing.length + 1) 1) := by
      rw [get_unique_standard_name, if_pos hb]
    refine ⟨by rw [hval]; exact hs2, fun hc => absurd hb hc, fun _ => ?_⟩
    exact ⟨find_counter base existing (existing.length + 1) 1, hs1, hval, hs2,
      fun j h1 h2 => hs3 j h1 h2⟩
  · have hval : get_unique_standard_name base existing = base := by
      rw [get_unique_standard_name, if_neg hb]
    exact ⟨by rw [hval]; exact hb, fun _ => hval, fun hc => absurd hc hb⟩

/-- Closed instance of `c8_unique_standard_name`: on the name set
`{A, A (1)}` the returned name is fresh. -/
theorem c8_unique_standard_name_witness :
    get_unique_standard_name "A" ["A", "A (1)"] ∉ ["A", "A (1)"] :=
  (c8_unique_standard_name "A" ["A", "A (1)"]).1

/-! ### String replacement (claim C5) -/

theorem isPrefixOf_append_self : ∀ (l r : List Char),
    l.isPrefixOf (l ++ r) = true := by
  intro l r
  induction l with
  | nil => simp [List.isPrefixOf]
  | cons c t ih =>
    simp only [List.cons_append, List.isPrefixOf, beq_self_eq_true,
      Bool.true_and]
    exact ih

theorem listReplace_of_not_contains (pat rep : List Char) :
    ∀ s : List Char, containsSub s pat = false → listReplace s pat rep = s := by
  intro s
  induction s with
  | nil =>
    intro _
    rw [listReplace]
  | cons c rest ih =>
    intro h
    rw [containsSub, Bool.or_eq_false_iff] at h
    have hnp : ¬ (pat ≠ [] ∧ pat.isPrefixOf (c :: rest) = true) := by
      intro hc
      rw [hc.2] at h
      exact Bool.true_eq_false.mp h.1
    rw [listReplace, dif_neg hnp, ih h.2]

theorem listReplace_prefix_step (pat rep rest : List Char) (hp : pat ≠ []) :
    listReplace (pat ++ rest) pat rep = rep ++ listReplace rest pat rep := by
  cases pat with
  | nil => exact absurd rfl hp
  | cons p ps =>
    have hcond : (p :: ps) ≠ [] ∧ (p :: ps).isPrefixOf (p :: (ps ++ rest)) = true := by
      refine ⟨List.cons_ne_nil p ps, ?_⟩
      exact isPrefixOf_append_self (p :: ps) rest
    have hdrop : (p :: (ps ++ rest)).drop (p :: ps).length = rest := by
      rw [List.length_cons, List.drop_succ_cons, List.drop_left]
    rw [List.cons_append, listReplace, dif_pos hcond, hdrop]

/-- C5 (amended): an identifier that does not start with `SonarCSharp_` is
not accumulated; for an identifier `SonarCSharp_` ++ rest whose remainder
contains no further occurrence of the substring `SonarCSharp_`, the
accumulated key is exactly the remainder.  (In general `str.replace`
removes every occurrence of the substring, not only the leading prefix.) -/
theorem c5_rule_key_extraction (pattern_id : String) :
    (pyStartsWith pattern_id "SonarCSharp_" = false →
      extractRuleKey pattern_id = none) ∧
    (∀ rest : String, pattern_id = "SonarCSharp_" ++ rest →
      containsSub rest.data "SonarCSharp_".data = false →
      extractRuleKey pattern_id = some rest) := by
  constructor
  · intro h
    simp [extractRuleKey, h]
  · intro rest hid hnc
    have hstart : pyStartsWith pattern_id "SonarCSharp_" = true := by
      rw [hid, pyStartsWith, String.data_append]
      exact isPrefixOf_append_self _ _
    have hrep : listReplace pattern_id.data "SonarCSharp_".data "".data =
        rest.data := by
      rw [hid, String.data_append,
        listReplace_prefix_step _ _ _ (by decide),
        listReplace_of_not_contains _ _ _ hnc]
      rfl
    rw [extractRuleKey, if_pos hstart, pyReplace, hrep]

/-- Closed instance of `c5_rule_key_extraction`: a prefixed identifier
whose remainder is prefix-free yields exactly the remainder. -/
theorem c5_rule_key_extraction_witness :
    extractRuleKey "SonarCSharp_S1067" = some "S1067" :=
  (c5_rule_key_extraction "SonarCSharp_S1067").2 "S1067" (by decide) (by decide)

/-- C5 counterexample: on the identifier `SonarCSharp_SonarCSharp_X` the
code strips BOTH occurrences of the substring and accumulates `X`, whereas
removing only the leading prefix would give `SonarCSharp_X`. -/
theorem c5_rule_key_extraction_counterexample :
    extractRuleKey "SonarCSharp_SonarCSharp_X" = some "X" ∧
    ("X" : String) ≠ "SonarCSharp_X" := by
  constructor
  · simp [extractRuleKey, pyStartsWith, pyReplace, listReplace]
  · decide

/-! ### Set reconciliation (claims C2, C9, C10) -/

/-- C2: the reconciliation reports as missing exactly the keys in the XML
set and not in the remote set, as extra exactly the reverse difference,
and as matching exactly the intersection. -/
theorem c2_reconciliation_sets (xml_rules codacy_patterns : List String)
    (k : String) :
    (k ∈ missing_in_codacy xml_rules codacy_patterns ↔
      k ∈ xml_rules ∧ k ∉ codacy_patterns) ∧
    (k ∈ extra_in_codacy xml_rules codacy_patterns ↔
      k ∈ codacy_patterns ∧ k ∉ xml_rules) ∧
    (k ∈ matching_rules xml_rules codacy_patterns ↔
      k ∈ xml_rules ∧ k ∈ codacy_patterns) := by
  simp [missing_in_codacy, extra_in_codacy, matching_rules,
    Finset.mem_sdiff, Finset.mem_inter, List.mem_toFinset]

/-- C9: the reported counts partition the distinct key sets — missing plus
matching equals the number of distinct XML keys, extra plus matching
equals the number of distinct remote keys — while the printed totals are
list lengths, which bound the distinct counts from above and exceed them
in the presence of duplicates. -/
theorem c9_reconciliation_counts (xml_rules codacy_patterns : List String) :
    (missing_in_codacy xml_rules codacy_patterns).card +
      (matching_rules xml_rules codacy_patterns).card =
      xml_rules.toFinset.card ∧
    (extra_in_codacy xml_rules codacy_patterns).card +
      (matching_rules xml_rules codacy_patterns).card =
      codacy_patterns.toFinset.card ∧
    xml_rules.toFinset.card ≤ xml_rules.length ∧
    codacy_patterns.toFinset.card ≤ codacy_patterns.length ∧
    (["S1", "S1"] : List String).toFinset.card <
      (["S1", "S1"] : List String).length := by
  refine ⟨?_, ?_, List.toFinset_card_le _, List.toFinset_card_le _, by decide⟩
  · rw [missing_in_codacy, matching_rules]
    exact Finset.card_sdiff_add_card_inter _ _
  · rw [extra_in_codacy, matching_rules, Finset.inter_comm]
    exact Finset.card_sdiff_add_card_inter _ _

/-- C10: the success-rate division is well defined for every XML file
yielding at least one rule key, and on a document yielding no rule keys
the division by zero (the `ZeroDivisionError` outcome, modelled as `none`)
is reachable. -/
theorem c10_success_rate_guard :
    (∀ xml_rules enabled_rules : List String, xml_rules ≠ [] →
      (success_rate xml_rules enabled_rules).isSome = true) ∧
    get_xml_rules docC10 = [] ∧
    success_rate (get_xml_rules docC10) [] = none := by
  have hdoc : get_xml_rules docC10 = [] := by
    simp [get_xml_rules, findall_desc, docC10, descendants, descendantsList,
      pySorted]
  refine ⟨?_, hdoc, ?_⟩
  · intro xml enabled hne
    have hlen : (xml.length : ℚ) ≠ 0 := by
      simpa using fun hc => hne (List.length_eq_zero.mp hc)
    rw [success_rate, pyDiv, if_neg hlen]
    rfl
  · rw [hdoc]
    simp [success_rate, pyDiv]

/-- Closed instance of `c10_success_rate_guard`: the rate is defined on a
one-rule list. -/
theorem c10_success_rate_guard_witness :
    (success_rate ["S1"] []).isSome = true :=
  c10_success_rate_guard.1 ["S1"] [] (by decide)

/-! ### XML rule extraction (claim C6) -/

/-- C6 (amended): a key is collected exactly when some `<rule>` descendant's
FIRST `<key>` child exists and carries that text.  (`rule.find('key')`
returns the first matching child, so later `<key>` children of the same
rule are never consulted.) -/
theorem c6_xml_rule_extraction (root : XmlNode) (k : String) :
    k ∈ get_xml_rules root ↔
    ∃ r ∈ findall_desc root "rule",
      ∃ c, find_child r "key" = some c ∧ c.text = some k := by
  rw [get_xml_rules, pySorted, List.mem_mergeSort, List.mem_filterMap]
  constructor
  · rintro ⟨r, hr, hf⟩
    rw [Option.bind_eq_some] at hf
    obtain ⟨c, hc1, hc2⟩ := hf
    exact ⟨r, hr, c, hc1, hc2⟩
  · rintro ⟨r, hr, c, hc1, hc2⟩
    refine ⟨r, hr, ?_⟩
    rw [hc1]
    exact hc2

/-- C6 counterexample: in a document whose rule has two `<key>` children,
`B` is the text of a `<key>` child of a `<rule>` element, yet it is not
collected (only the first `<key>` child is read). -/
theorem c6_xml_rule_extraction_counterexample :
    ruleNodeC6 ∈ findall_desc docC6 "rule" ∧
    keyNodeB ∈ ruleNodeC6.children ∧
    keyNodeB.tag = "key" ∧
    keyNodeB.text = some "B" ∧
    "B" ∉ get_xml_rules docC6 := by
  have hfind : findall_desc docC6 "rule" = [ruleNodeC6] := rfl
  have hxml : get_xml_rules docC6 = ["A"] := by
    rw [get_xml_rules]
    have hfm : (findall_desc docC6 "rule").filterMap
        (fun r => (find_child r "key").bind XmlNode.text) = ["A"] := rfl
    rw [hfm, pySorted, List.mergeSort_singleton]
  refine ⟨?_, ?_, rfl, rfl, ?_⟩
  · rw [hfind]
    exact List.mem_singleton.mpr rfl
  · simp [ruleNodeC6, XmlNode.children]
  · rw [hxml]
    decide

/-! ### Cursor pagination (claim C3) -/

theorem get_available_patterns_spec (resp : Nat → FetchResult) :
    ∀ (N i : Nat) (acc : Finset String) (fuel : Nat),
    isTerminal (resp (i + N)) = true →
    (∀ j, j < N → isTerminal (resp (i + j)) = false) →
    N + 1 ≤ fuel →
    get_available_patterns resp fuel i acc =
      some (acc ∪ unionUpTo resp i N) := by
  intro N
  induction N with
  | zero =>
    intro i acc fuel hterm _ hfuel
    obtain ⟨fuel', rfl⟩ : ∃ f, fuel = f + 1 := ⟨fuel - 1, by omega⟩
    rw [Nat.add_zero] at hterm
    rw [get_available_patterns]
    cases hr : resp i with
    | err =>
      simp [unionUpTo, hr, pageIds]
    | ok page =>
      rw [hr] at hterm
      have hcur : page.cursor.isNone = true := hterm
      simp [unionUpTo, hr, pageIds, hcur]
  | succ N ih =>
    intro i acc fuel hterm hnon hfuel
    obtain ⟨fuel', rfl⟩ : ∃ f, fuel = f + 1 := ⟨fuel - 1, by omega⟩
    have h0 : isTerminal (resp i) = false := by
      have := hnon 0 (by omega)
      rwa [Nat.add_zero] at this
    cases hr : resp i with
    | err =>
      rw [hr] at h0
      exact absurd h0 (by simp [isTerminal])
    | ok page =>
      have hcur : page.cursor.isNone = false := by
        rw [hr] at h0
        simpa [isTerminal] using h0
      rw [get_available_patterns]
      simp only [hr, hcur, Bool.false_eq_true, if_false]
      have hrec := ih (i + 1) (acc ∪ (page.data.filterMap extractId).toFinset)
        fuel'
        (by rw [show i + 1 + N = i + (N + 1) by omega]; exact hterm)
        (fun j hj => by
          rw [show i + 1 + j = i + (j + 1) by omega]
          exact hnon (j + 1) (by omega))
        (by omega)
      rw [hrec]
      rw [show unionUpTo resp i (N + 1) =
        pageIds (resp i) ∪ unionUpTo resp (i + 1) N from rfl]
      rw [hr]
      rw [show pageIds (FetchResult.ok page) =
        (page.data.filterMap extractId).toFinset from rfl]
      rw [Finset.union_assoc]

/-- C3 (amended): the cursor-following retrieval loops
(`_get_available_patterns` and `_get_all_tool_patterns` of the importer,
and the identical loop of `get_default_patterns`) terminate on every
response sequence whose `N`-th response is the first to fail or to carry
no cursor — any fuel beyond `N + 1` gives the same result — and the result
is the union of the pattern ids over the pages retrieved.
(`check_missing_rules.get_codacy_patterns`, by contrast, issues a single
unpaginated GET; see the counterexample.) -/
theorem c3_pagination (resp : Nat → FetchResult) (N : Nat)
    (hterm : isTerminal (resp N) = true)
    (hfirst : ∀ j, j < N → isTerminal (resp j) = false) :
    ∀ fuel, N + 1 ≤ fuel →
    get_available_patterns resp fuel 0 ∅ = some (unionUpTo resp 0 N) := by
  intro fuel hfuel
  have h := get_available_patterns_spec resp N 0 ∅ fuel
    (by simpa using hterm) (fun j hj => by simpa using hfirst j hj) hfuel
  simpa using h

/-- Closed instance of `c3_pagination`: on the two-page response sequence
the loop stops after the second request, with the union of both pages. -/
theorem c3_pagination_witness :
    get_available_patterns twoPageResp 2 0 ∅ =
      some (unionUpTo twoPageResp 0 1) :=
  c3_pagination twoPageResp 1 (by decide) (by decide) 2 (by decide)

/-- C3 counterexample: `get_codacy_patterns` ignores the continuation
cursor of its single GET — on a first page that carries a cursor it stops
anyway, so the key of the second page's pattern is missing from its
result. -/
theorem c3_pagination_counterexample :
    page0.cursor = some "c1" ∧
    get_codacy_patterns (twoPageResp 0) = some ["A"] ∧
    pageIds (twoPageResp 1) = {"SonarCSharp_B"} ∧
    extractRuleKey "SonarCSharp_B" = some "B" ∧
    ("B" : String) ∉ (["A"] : List String) := by
  refine ⟨rfl, ?_, ?_, ?_, by decide⟩
  · simp [get_codacy_patterns, twoPageResp, page0, extractRuleKey, pySorted,
      pyStartsWith, pyReplace, listReplace]
  · decide
  · simp [extractRuleKey, pyStartsWith, pyReplace, listReplace]

/-! ### Pattern mapping and the PATCH payload (claim C1) -/

theorem codacy_tool_eq (rk t : String)
    (h : codacy_tool_for_repo rk = some t) : t = "SonarC#" := by
  rw [codacy_tool_for_repo] at h
  split_ifs at h
  · exact (Option.some.inj h).symm
  · exact (Option.some.inj h).symm

theorem mem_matched_sonar_patterns (rules : List SonarRule)
    (available : List String) (pc : PatternConfig) :
    pc ∈ matched_sonar_patterns rules available ↔
    ∃ r ∈ rules, (codacy_tool_for_repo r.repository_key).isSome = true ∧
      rule_pattern_id r ∈ available ∧ pc = pattern_config_of_rule r := by
  rw [matched_sonar_patterns, List.mem_filterMap]
  constructor
  · rintro ⟨r, hr, hf⟩
    cases hrepo : codacy_tool_for_repo r.repository_key with
    | none =>
      rw [hrepo] at hf
      exact absurd hf (by simp)
    | some tool =>
      rw [hrepo] at hf
      by_cases hav : rule_pattern_id r ∈ available
      · rw [if_pos hav] at hf
        exact ⟨r, hr, by rw [hrepo]; rfl, hav, (Option.some.inj hf).symm⟩
      · rw [if_neg hav] at hf
        exact absurd hf (by simp)
  · rintro ⟨r, hr, hsome, hav, rfl⟩
    refine ⟨r, hr, ?_⟩
    cases hrepo : codacy_tool_for_repo r.repository_key with
    | none =>
      rw [hrepo] at hsome
      simp at hsome
    | some tool =>
      simp [hav]

theorem add_to_group_nil (tool : String) (pc : PatternConfig) :
    add_to_group [] tool pc = [(tool, [pc])] := by
  simp [add_to_group]

theorem add_to_group_single (l : List PatternConfig) (pc : PatternConfig) :
    add_to_group [("SonarC#", l)] "SonarC#" pc = [("SonarC#", l ++ [pc])] := by
  simp [add_to_group]

theorem foldl_map_rule_step_single (avail : List String) :
    ∀ (rules : List SonarRule) (l : List PatternConfig),
    rules.foldl (map_rule_step avail) [("SonarC#", l)] =
      [("SonarC#", l ++ matched_sonar_patterns rules avail)] := by
  intro rules
  induction rules with
  | nil =>
    intro l
    simp [matched_sonar_patterns]
  | cons r rest ih =>
    intro l
    rw [List.foldl_cons]
    cases hrepo : codacy_tool_for_repo r.repository_key with
    | none =>
      have hstep : map_rule_step avail [("SonarC#", l)] r = [("SonarC#", l)] := by
        simp only [map_rule_step, hrepo]
      have hm : matched_sonar_patterns (r :: rest) avail =
          matched_sonar_patterns rest avail := by
        simp [matched_sonar_patterns, List.filterMap_cons, hrepo]
      rw [hstep, ih l, hm]
    | some tool =>
      have htool := codacy_tool_eq _ _ hrepo
      subst htool
      by_cases hav : rule_pattern_id r ∈ avail
      · have hstep : map_rule_step avail [("SonarC#", l)] r =
            [("SonarC#", l ++ [pattern_config_of_rule r])] := by
          simp only [map_rule_step, hrepo, if_pos hav, add_to_group_single]
        have hm : matched_sonar_patterns (r :: rest) avail =
            pattern_config_of_rule r :: matched_sonar_patterns rest avail := by
          simp [matched_sonar_patterns, List.filterMap_cons, hrepo, hav]
        rw [hstep, ih, hm, List.append_assoc]
        rfl
      · have hstep : map_rule_step avail [("SonarC#", l)] r = [("SonarC#", l)] := by
          simp only [map_rule_step, hrepo, if_neg hav]
        have hm : matched_sonar_patterns (r :: rest) avail =
            matched_sonar_patterns rest avail := by
          simp [matched_sonar_patterns, List.filterMap_cons, hrepo, hav]
        rw [hstep, ih l, hm]

theorem map_sonar_rules_eq (avail : List String) :
    ∀ rules : List SonarRule,
    map_sonar_rules_to_codacy_patterns rules avail =
      if matched_sonar_patterns rules avail = [] then []
      else [("SonarC#", matched_sonar_patterns rules avail)] := by
  intro rules
  induction rules with
  | nil =>
    simp [map_sonar_rules_to_codacy_patterns, matched_sonar_patterns]
  | cons r rest ih =>
    rw [map_sonar_rules_to_codacy_patterns, List.foldl_cons]
    cases hrepo : codacy_tool_for_repo r.repository_key with
    | none =>
      have hstep : map_rule_step avail [] r = [] := by
        simp only [map_rule_step, hrepo]
      have hm : matched_sonar_patterns (r :: rest) avail =
          matched_sonar_patterns rest avail := by
        simp [matched_sonar_patterns, List.filterMap_cons, hrepo]
      rw [hstep, hm]
      exact ih
    | some tool =>
      have htool := codacy_tool_eq _ _ hrepo
      subst htool
      by_cases hav : rule_pattern_id r ∈ avail
      · have hstep : map_rule_step avail [] r =
            [("SonarC#", [pattern_config_of_rule r])] := by
          simp only [map_rule_step, hrepo, if_pos hav, add_to_group_nil]
        have hm : matched_sonar_patterns (r :: rest) avail =
            pattern_config_of_rule r :: matched_sonar_patterns rest avail := by
          simp [matched_sonar_patterns, List.filterMap_cons, hrepo, hav]
        rw [hstep, foldl_map_rule_step_single avail rest, hm,
          if_neg (List.cons_ne_nil _ _)]
        rfl
      · have hstep : map_rule_step avail [] r = [] := by
          simp only [map_rule_step, hrepo, if_neg hav]
        have hm : matched_sonar_patterns (r :: rest) avail =
            matched_sonar_patterns rest avail := by
          simp [matched_sonar_patterns, List.filterMap_cons, hrepo, hav]
        rw [hstep, hm]
        exact ih

theorem mem_comprehensive_patterns (patterns : List PatternConfig)
    (all_available : List String) (e : PatternConfig) :
    e ∈ comprehensive_patterns patterns all_available ↔
    e ∈ patterns ∨ ∃ pid, pid ∈ all_available ∧
      pid ∉ patterns.map PatternConfig.id ∧
      e = { id := pid, enabled := false, parameters := [] } := by
  simp only [comprehensive_patterns, List.mem_append, List.mem_map,
    List.mem_filter, decide_eq_true_eq]
  constructor
  · rintro (h | ⟨pid, ⟨h1, h2⟩, h3⟩)
    · exact Or.inl h
    · exact Or.inr ⟨pid, h1, h2, h3.symm⟩
  · rintro (h | ⟨pid, h1, h2, h3⟩)
    · exact Or.inl h
    · exact Or.inr ⟨pid, ⟨h1, h2⟩, h3.symm⟩

theorem mem_enable_events (tu : List (String × String))
    (tps : List (String × List PatternConfig)) (atp : String → List String)
    (uuid : String) (payload : List PatternConfig)
    (h : Ev.enablePatch uuid payload ∈ enable_events tu tps atp) :
    ∃ tp ∈ tps, dict_get tu (pyLower tp.1) = some uuid ∧
      payload = comprehensive_patterns tp.2 (atp uuid) := by
  rw [enable_events, List.mem_flatMap] at h
  obtain ⟨tp, htp, hin⟩ := h
  cases hd : dict_get tu (pyLower tp.1) with
  | none =>
    rw [hd] at hin
    simp at hin
  | some u =>
    rw [hd] at hin
    simp only [List.mem_cons, List.not_mem_nil, or_false] at hin
    rcases hin with h1 | h1
    · exact absurd h1 (by simp)
    · have h2 := Ev.enablePatch.injEq uuid payload u
        (comprehensive_patterns tp.2 (atp u)) ▸ h1
      rw [Ev.enablePatch.injEq] at h1
      obtain ⟨rfl, rfl⟩ := h1
      exact ⟨tp, htp, hd, rfl⟩

theorem enablePatch_payload (w : World) (rules : List SonarRule)
    (name uuid : String) (payload : List PatternConfig)
    (hmem : Ev.enablePatch uuid payload ∈ (runImporter w rules name).1) :
    payload = comprehensive_patterns
      (matched_sonar_patterns rules w.availablePatterns)
      (w.allToolPatterns uuid) := by
  obtain ⟨tr, sr, cr, str, dr, ap, atp, er, pr⟩ := w
  simp only [runImporter] at hmem
  cases tr with
  | none => simp at hmem
  | some tools =>
    cases cr with
    | none => simp at hmem
    | some cid =>
      cases str with
      | none => simp at hmem
      | some stdTools =>
        have hmem' : Ev.enablePatch uuid payload ∈
            enable_events (build_tool_uuids tools)
              (map_sonar_rules_to_codacy_patterns rules ap) atp := by
          by_cases hp : pr
          · simp only [hp, if_true, List.mem_append, List.mem_cons,
              List.mem_map, List.not_mem_nil] at hmem
            simp at hmem
            exact hmem
          · simp only [hp, if_false, List.mem_append, List.mem_cons,
              List.mem_map, List.not_mem_nil] at hmem
            simp at hmem
            exact hmem
        obtain ⟨tp, htp, _, hpay⟩ :=
          mem_enable_events _ _ _ _ _ hmem'
        rw [map_sonar_rules_eq] at htp
        by_cases hm : matched_sonar_patterns rules ap = []
        · rw [hm] at htp
          simp at htp
        · rw [if_neg hm] at htp
          simp only [List.mem_singleton] at htp
          rw [htp] at hpay
          exact hpay

/-- C1 (amended): in every run, the PATCH payload sent for the SonarC#
tool enables a pattern id exactly when it is `SonarCSharp_` + key of some
XML rule WITH A RECOGNISED REPOSITORY KEY (`csharpsquid` or
`roslyn.sonaranalyzer.security.cs`) whose pattern id occurs in the
available patterns retrieved from the API; every other pattern id of the
tool's catalog appears exactly once, marked disabled; and each matched
rule's payload entry carries the rule's parameters as name/value pairs. -/
theorem c1_patch_payload (w : World) (rules : List SonarRule)
    (name uuid : String) (payload : List PatternConfig)
    (hmem : Ev.enablePatch uuid payload ∈ (runImporter w rules name).1)
    (hnd : (w.allToolPatterns uuid).Nodup) :
    (∀ pid : String,
      (∃ e ∈ payload, e.enabled = true ∧ e.id = pid) ↔
      (∃ r ∈ rules, (codacy_tool_for_repo r.repository_key).isSome = true ∧
        pid = rule_pattern_id r ∧
        rule_pattern_id r ∈ w.availablePatterns)) ∧
    (∀ pid ∈ w.allToolPatterns uuid,
      (∀ r ∈ rules, (codacy_tool_for_repo r.repository_key).isSome = true →
        rule_pattern_id r ∈ w.availablePatterns → rule_pattern_id r ≠ pid) →
      payload.countP (fun e => e.id == pid) = 1 ∧
      ∀ e ∈ payload, e.id = pid → e.enabled = false) ∧
    (∀ r ∈ rules, (codacy_tool_for_repo r.repository_key).isSome = true →
      rule_pattern_id r ∈ w.availablePatterns →
      ∃ e ∈ payload, e.id = rule_pattern_id r ∧ e.enabled = true ∧
        e.parameters =
          r.parameters.map (fun p => { name := p.1, value := p.2 })) := by
  have hpay := enablePatch_payload w rules name uuid payload hmem
  subst hpay
  have hmatched_id : ∀ pc ∈ matched_sonar_patterns rules w.availablePatterns,
      ∃ r ∈ rules, (codacy_tool_for_repo r.repository_key).isSome = true ∧
        rule_pattern_id r ∈ w.availablePatterns ∧
        pc = pattern_config_of_rule r := by
    intro pc hpc
    exact (mem_matched_sonar_patterns _ _ _).mp hpc
  refine ⟨?_, ?_, ?_⟩
  · intro pid
    constructor
    · rintro ⟨e, he, hen, hid⟩
      rcases (mem_comprehensive_patterns _ _ _).mp he with h | ⟨pid', _, _, hq⟩
      · obtain ⟨r, hr, hsome, hav, rfl⟩ := hmatched_id e h
        exact ⟨r, hr, hsome, by rw [← hid]; rfl, hav⟩
      · rw [hq] at hen
        simp at hen
    · rintro ⟨r, hr, hsome, rfl, hav⟩
      refine ⟨pattern_config_of_rule r, ?_, rfl, rfl⟩
      apply (mem_comprehensive_patterns _ _ _).mpr
      exact Or.inl ((mem_matched_sonar_patterns _ _ _).mpr
        ⟨r, hr, hsome, hav, rfl⟩)
  · intro pid hpid hnone
    have hidne : ∀ pc ∈ matched_sonar_patterns rules w.availablePatterns,
        pc.id ≠ pid := by
      intro pc hpc
      obtain ⟨r, hr, hsome, hav, rfl⟩ := hmatched_id pc hpc
      exact hnone r hr hsome hav
    have hnotin : pid ∉ (matched_sonar_patterns rules
        w.availablePatterns).map PatternConfig.id := by
      rw [List.mem_map]
      rintro ⟨pc, hpc, hq⟩
      exact hidne pc hpc hq
    constructor
    · rw [comprehensive_patterns, List.countP_append]
      have h1 : (matched_sonar_patterns rules
          w.availablePatterns).countP (fun e => e.id == pid) = 0 := by
        rw [List.countP_eq_zero]
        intro pc hpc
        simp only [beq_iff_eq]
        exact hidne pc hpc
      have h2 : (((w.allToolPatterns uuid).filter
          (fun pid' => decide (pid' ∉ (matched_sonar_patterns rules
            w.availablePatterns).map PatternConfig.id))).map
          (fun pid' => ({ id := pid', enabled := false, parameters := [] }
            : PatternConfig))).countP (fun e => e.id == pid) = 1 := by
        rw [List.countP_map]
        have hcomp : ((fun e : PatternConfig => e.id == pid) ∘
            (fun pid' => ({ id := pid', enabled := false, parameters := [] }
              : PatternConfig))) = fun pid' => pid' == pid := rfl
        rw [hcomp, ← List.count_eq_countP]
        exact List.count_eq_one_of_mem
          (List.Nodup.filter _ hnd)
          (List.mem_filter.mpr ⟨hpid, by simpa using hnotin⟩)
      rw [h1, h2]
    · intro e he hid
      rcases (mem_comprehensive_patterns _ _ _).mp he with h | ⟨pid', _, _, hq⟩
      · exact absurd hid (hidne e h)
      · rw [hq]
  · intro r hr hsome hav
    refine ⟨pattern_config_of_rule r, ?_, rfl, rfl, rfl⟩
    apply (mem_comprehensive_patterns _ _ _).mpr
    exact Or.inl ((mem_matched_sonar_patterns _ _ _).mpr
      ⟨r, hr, hsome, hav, rfl⟩)

/-- Closed instance of `c1_patch_payload`: in the concrete run, the
unmatched available pattern `SonarCSharp_S2` appears exactly once in the
sent payload. -/
theorem c1_patch_payload_witness :
    payloadC1.countP (fun e => e.id == "SonarCSharp_S2") = 1 :=
  ((c1_patch_payload worldC1 rulesC1 "Imported Sonar Rules" "u1" payloadC1
    (by decide) (by decide)).2.1 "SonarCSharp_S2" (by decide) (by decide)).1

/-- C1 counterexample: `SonarCSharp_S2` is the pattern id of an XML rule
(`ruleS2`) and occurs in the available patterns, yet the payload the run
sends for the SonarC# tool contains no enabled entry for it — the code
additionally filters on the repository key, which `ruleS2` fails. -/
theorem c1_patch_payload_counterexample :
    Ev.enablePatch "u1" payloadC1 ∈
      (runImporter worldC1 rulesC1 "Imported Sonar Rules").1 ∧
    ruleS2 ∈ rulesC1 ∧
    rule_pattern_id ruleS2 = "SonarCSharp_S2" ∧
    rule_pattern_id ruleS2 ∈ availC1 ∧
    payloadC1.countP (fun e => e.enabled && e.id == "SonarCSharp_S2") = 0 := by
  refine ⟨by decide, by decide, by decide, by decide, by decide⟩

/-! ### Error handling of the run (claim C4) -/

/-- C4 (amended): the run exits nonzero exactly when the tools GET, the
create-standard POST, the standard-tools GET, or the promote POST fails;
failures of the other calls (existing-standards GET, per-tool disable
PATCH, pattern GETs, enable PATCH) are logged and the run continues. -/
theorem c4_failure_handling (w : World) (rules : List SonarRule)
    (name : String) :
    ((runImporter w rules name).2 = some 1 ∨
      (runImporter w rules name).2 = none) ∧
    ((runImporter w rules name).2 = none ↔
      (w.toolsResp ≠ none ∧ w.createResp ≠ none ∧ w.stdToolsResp ≠ none ∧
        w.promoteResp = true)) := by
  obtain ⟨tr, sr, cr, str, dr, ap, atp, er, pr⟩ := w
  simp only [runImporter]
  cases tr with
  | none => simp
  | some tools =>
    cases cr with
    | none => simp
    | some cid =>
      cases str with
      | none => simp
      | some stdTools =>
        by_cases hp : pr <;> simp [hp]

/-- C4 counterexample: in `worldC4` the per-tool disable PATCH is issued
and fails, yet the run continues (the later promote call is still made)
and terminates with a zero exit status. -/
theorem c4_failure_handling_counterexample :
    Ev.disablePatch "u1" ∈
      (runImporter worldC4 rulesC4 "Imported Sonar Rules").1 ∧
    worldC4.disableResp "u1" = false ∧
    (runImporter worldC4 rulesC4 "Imported Sonar Rules").2 = none ∧
    Ev.promote ∈ (runImporter worldC4 rulesC4 "Imported Sonar Rules").1 :=
  ⟨by decide, rfl, by decide, by decide⟩

/-! ### Order of the configuration steps (claim C7) -/

theorem pairwise_le_all_eq (c : ℕ) :
    ∀ l : List ℕ, (∀ x ∈ l, x = c) → l.Pairwise (· ≤ ·) := by
  intro l
  induction l with
  | nil => intro _; exact List.Pairwise.nil
  | cons a t ih =>
    intro h
    refine List.Pairwise.cons ?_ (ih fun x hx => h x (List.mem_cons_of_mem _ hx))
    intro b hb
    rw [h a (List.mem_cons_self _ _), h b (List.mem_cons_of_mem _ hb)]

theorem disable_ranks (l : List String) :
    (l.map Ev.disablePatch).filterMap stepRank = l.map (fun _ => 1) := by
  induction l with
  | nil => rfl
  | cons a t ih =>
    simp only [List.map_cons, List.filterMap_cons, stepRank, ih]

theorem enable_ranks (tu : List (String × String))
    (tps : List (String × List PatternConfig)) (atp : String → List String) :
    ∀ x ∈ (enable_events tu tps atp).filterMap stepRank, x = 2 := by
  intro x hx
  rw [List.mem_filterMap] at hx
  obtain ⟨e, he, hrank⟩ := hx
  rw [enable_events, List.mem_flatMap] at he
  obtain ⟨tp, _, hin⟩ := he
  cases hd : dict_get tu (pyLower tp.1) with
  | none =>
    rw [hd] at hin
    simp at hin
  | some u =>
    rw [hd] at hin
    simp only [List.mem_cons, List.not_mem_nil, or_false] at hin
    rcases hin with h1 | h1 <;> rw [h1] at hrank
    · simp [stepRank] at hrank
    · rw [stepRank] at hrank
      exact (Option.some.inj hrank).symm

theorem pairwise_rank_shape (dis enab : List ℕ)
    (hd : ∀ x ∈ dis, x = 1) (he : ∀ x ∈ enab, x = 2) :
    ((([0] ++ dis) ++ enab) ++ [3]).Pairwise (· ≤ ·) := by
  rw [List.pairwise_append]
  refine ⟨?_, List.pairwise_singleton _ _, ?_⟩
  · rw [List.pairwise_append]
    refine ⟨?_, pairwise_le_all_eq 2 enab he, ?_⟩
    · rw [List.pairwise_append]
      refine ⟨List.pairwise_singleton _ _, pairwise_le_all_eq 1 dis hd, ?_⟩
      intro a ha b hb
      rw [List.mem_singleton] at ha
      rw [hd b hb, ha]
      omega
    · intro a ha b hb
      rw [List.mem_append] at ha
      rw [he b hb]
      rcases ha with ha | ha
      · rw [List.mem_singleton] at ha
        omega
      · rw [hd a ha]
        omega
  · intro a ha b hb
    rw [List.mem_singleton] at hb
    rw [hb]
    rw [List.mem_append] at ha
    rcases ha with ha | ha
    · rw [List.mem_append] at ha
      rcases ha with ha | ha
      · rw [List.mem_singleton] at ha
        omega
      · rw [hd a ha]
        omega
    · rw [he a ha]
      omega

/-- C7: every run performs the coding-standard calls in the fixed order
create standard, disable tools, enable patterns, promote — the ranked
subsequence of the issued requests is monotone, so no later step ever
occurs before an earlier one. -/
theorem c7_step_order (w : World) (rules : List SonarRule) (name : String) :
    ((runImporter w rules name).1.filterMap stepRank).Pairwise (· ≤ ·) := by
  obtain ⟨tr, sr, cr, str, dr, ap, atp, er, pr⟩ := w
  simp only [runImporter]
  cases tr with
  | none => simp [stepRank]
  | some tools =>
    cases cr with
    | none => simp [stepRank]
    | some cid =>
      cases str with
      | none => simp [stepRank]
      | some stdTools =>
        have hdis : ∀ x ∈ ((stdTools.filterMap truthy).map
            Ev.disablePatch).filterMap stepRank, x = 1 := by
          rw [disable_ranks]
          intro x hx
          rw [List.mem_map] at hx
          obtain ⟨_, _, hq⟩ := hx
          exact hq.symm
        have henab : ∀ x ∈ (Ev.getAvailablePatterns ::
            enable_events (build_tool_uuids tools)
              (map_sonar_rules_to_codacy_patterns rules ap)
              atp).filterMap stepRank, x = 2 := by
          intro x hx
          have hcons : (Ev.getAvailablePatterns ::
              enable_events (build_tool_uuids tools)
                (map_sonar_rules_to_codacy_patterns rules ap)
                atp).filterMap stepRank =
              (enable_events (build_tool_uuids tools)
                (map_sonar_rules_to_codacy_patterns rules ap)
                atp).filterMap stepRank := rfl
          rw [hcons] at hx
          exact enable_ranks _ _ _ x hx
        by_cases hp : pr
        · simp only [hp, if_true]
          rw [List.filterMap_append, List.filterMap_append,
            List.filterMap_append]
          exact pairwise_rank_shape _ _ hdis henab
        · simp only [hp]
          rw [if_neg Bool.false_ne_true]
          rw [List.filterMap_append, List.filterMap_append,
            List.filterMap_append]
          exact pairwise_rank_shape _ _ hdis henab

end SonarImporter
